import Mathlib

/-!
# Task Manager (`src/App.jsx`): state operations, progress display, storage adapter

A shallow embedding of the React component `App` and of the hook
`useLocalStorage`.  Every event handler of the component becomes a pure function
on the record `State` of the component's `useState` cells; the value returned by
`uid()` is an explicit argument of `addTask`.

JavaScript strings are sequences of UTF-16 code units and are modelled as lists
of natural numbers (`JSString`), so that every JavaScript string, well-formed
Unicode or not, is covered.  No definition below depends on the bound `< 2^16`.

The built-ins the component calls are embedded after ECMA-262 and the Web
Storage standard: `String.prototype.trim` (`trim`), `JSON.stringify` on strings,
booleans, task records and task lists (`quoteJSONString`, `stringifyTask`,
`stringifyTasks`), `JSON.parse` on every text (`jsonParse`), and
`localStorage.getItem` / `setItem` (`getItem`, `setItem`).
-/

namespace TaskManager

/-! ## JavaScript strings -/

/-- A JavaScript string: its UTF-16 code units, in order. -/
abbrev JSString := List Nat

/-- The UTF-16 code units of one Unicode scalar value. -/
def utf16Units (c : Nat) : List Nat :=
  if c < 0x10000 then [c]
  else [0xD800 + (c - 0x10000) / 0x400, 0xDC00 + (c - 0x10000) % 0x400]

/-- The JavaScript string denoted by a string literal of the source. -/
def js (s : String) : JSString :=
  s.toList.flatMap (fun c => utf16Units c.toNat)

/-- The code units `String.prototype.trim` strips: ECMAScript `WhiteSpace`
(TAB, VT, FF, SP, NBSP, ZWNBSP and the category Zs) and `LineTerminator`
(LF, CR, LS, PS).  All of them are single code units. -/
def isWhiteSpace (u : Nat) : Bool :=
  u == 0x09 || u == 0x0A || u == 0x0B || u == 0x0C || u == 0x0D || u == 0x20 ||
  u == 0xA0 || u == 0x1680 || (0x2000 ≤ u && u ≤ 0x200A) || u == 0x2028 ||
  u == 0x2029 || u == 0x202F || u == 0x205F || u == 0x3000 || u == 0xFEFF

/-- `String.prototype.trimStart`. -/
def trimStart (s : JSString) : JSString :=
  s.dropWhile isWhiteSpace

/-- `String.prototype.trimEnd`. -/
def trimEnd (s : JSString) : JSString :=
  (s.reverse.dropWhile isWhiteSpace).reverse

/-- `String.prototype.trim`: leading and trailing white space removed. -/
def trim (s : JSString) : JSString :=
  trimEnd (trimStart s)

/-- JavaScript truthiness of a string: every string but the empty one. -/
def truthyStr (s : JSString) : Bool :=
  !s.isEmpty

/-! ## Data model -/

/-- A task record `{ id, text, completed }`. -/
structure Task where
  id : JSString
  text : JSString
  completed : Bool
  deriving DecidableEq, Repr

/-- The `useState` cells of `App` that the task handlers read and write:
`tasks`, `newTask`, `editingId` (`null` is `none`), `editingText`, `announce`. -/
structure State where
  tasks : List Task
  newTask : JSString
  editingId : Option JSString
  editingText : JSString
  announce : JSString
  deriving DecidableEq, Repr

/-- The state of a freshly mounted component whose `tasks` key loaded as `[]`. -/
def initialState : State :=
  { tasks := [], newTask := [], editingId := none, editingText := [], announce := [] }

/-- The expression `t?.text || dflt` for the result `t` of `Array.prototype.find`:
`dflt` when no record was found or when the found text is the empty string. -/
def textOr (t : Option Task) (dflt : JSString) : JSString :=
  match t with
  | none => dflt
  | some r => if truthyStr r.text then r.text else dflt

/-! ## Event handlers -/

/-- The handler `addTask`; `uid` is the value the call `uid()` returns. -/
def addTask (s : State) (uid : JSString) : State :=
  let text := trim s.newTask
  if !truthyStr text then s
  else
    let next : Task := { id := uid, text := text, completed := false }
    { s with
      tasks := next :: s.tasks
      newTask := []
      announce := js "Added task: " ++ text }

/-- The handler `toggleTask`. -/
def toggleTask (s : State) (id : JSString) : State :=
  { s with
    tasks := s.tasks.map (fun t => if t.id = id then { t with completed := !t.completed } else t) }

/-- The handler `beginEdit`. -/
def beginEdit (s : State) (id : JSString) : State :=
  let t := s.tasks.find? (fun x => x.id = id)
  { s with editingId := some id, editingText := textOr t [] }

/-- The handler `saveEdit`. -/
def saveEdit (s : State) : State :=
  let text := trim s.editingText
  if !truthyStr text then { s with editingId := none }
  else
    { s with
      tasks := s.tasks.map (fun t => if some t.id = s.editingId then { t with text := text } else t)
      announce := js "Edited task: " ++ text
      editingId := none }

/-- The handler `cancelEdit`. -/
def cancelEdit (s : State) : State :=
  { s with editingId := none }

/-- The handler `removeTask`. -/
def removeTask (s : State) (id : JSString) : State :=
  let t := s.tasks.find? (fun x => x.id = id)
  { s with
    tasks := s.tasks.filter (fun x => x.id ≠ id)
    announce := js "Deleted task: " ++ textOr t (js "task") }

/-- The `onChange` handler of the add field: `setNewTask(e.target.value)`. -/
def setNewTask (s : State) (v : JSString) : State :=
  { s with newTask := v }

/-- The `onChange` handler of the inline edit field: `setEditingText(e.target.value)`. -/
def setEditingText (s : State) (v : JSString) : State :=
  { s with editingText := v }

/-! ## Progress display -/

/-- The constant `completed`: `tasks.filter((t) => t.completed).length`. -/
def completed (tasks : List Task) : Nat :=
  (tasks.filter (fun t => t.completed)).length

/-- The constant `total`: `tasks.length`. -/
def total (tasks : List Task) : Nat :=
  tasks.length

/-- The expression `total || 1`: a number is falsy exactly when it is `0`. -/
def totalOrOne (tasks : List Task) : Nat :=
  if total tasks = 0 then 1 else total tasks

/-- The text count `{completed}/{total || 1}`, as (numerator, denominator). -/
def progressCount (tasks : List Task) : Nat × Nat :=
  (completed tasks, totalOrOne tasks)

/-- The attribute `max={Math.max(total, 1)}` of the progress bar. -/
def progressMax (tasks : List Task) : Nat :=
  max (total tasks) 1

/-- The attribute `value={total === 0 ? 0 : completed}` of the progress bar. -/
def progressValue (tasks : List Task) : Nat :=
  if total tasks = 0 then 0 else completed tasks

/-- Whether the row of `t` renders its inline edit form: `editingId === t.id`. -/
def inEditMode (s : State) (t : Task) : Bool :=
  s.editingId == some t.id

/-- The number of rows rendered in edit mode. -/
def editingRows (s : State) : Nat :=
  (s.tasks.filter (inEditMode s)).length

/-- Whether the row of `t` renders its Edit and Delete buttons:
`editingId !== t.id`. -/
def rowActionsShown (s : State) (t : Task) : Bool :=
  s.editingId != some t.id

/-! ## User actions and runs -/

/-- One user action on the mounted component. -/
inductive Op where
  | input (v : JSString)
  | add (uid : JSString)
  | toggle (id : JSString)
  | beginEdit (id : JSString)
  | editInput (v : JSString)
  | saveEdit
  | cancelEdit
  | remove (id : JSString)
  deriving DecidableEq, Repr

/-- The handler an action invokes. -/
def step (s : State) : Op → State
  | .input v => setNewTask s v
  | .add uid => addTask s uid
  | .toggle id => toggleTask s id
  | .beginEdit id => beginEdit s id
  | .editInput v => setEditingText s v
  | .saveEdit => saveEdit s
  | .cancelEdit => cancelEdit s
  | .remove id => removeTask s id

/-- The ids of a task list, in order. -/
def ids (tasks : List Task) : List JSString :=
  tasks.map (fun t => t.id)

/-- An action is admissible when the id handed to an `add` is not yet the id of
a record of the list. -/
def admissible (s : State) : Op → Bool
  | .add uid => !(ids s.tasks).contains uid
  | _ => true

/-- The state after a sequence of actions. -/
def run (s : State) : List Op → State
  | [] => s
  | op :: ops => run (step s op) ops

/-- Every action of the sequence is admissible in the state it is taken in. -/
def admissibleRun (s : State) : List Op → Bool
  | [] => true
  | op :: ops => admissible s op && admissibleRun (step s op) ops

/-! ## JSON text: `JSON.stringify` on the values the component stores -/

/-- A leading (high) surrogate code unit. -/
def isLeadSurrogate (u : Nat) : Bool :=
  0xD800 ≤ u && u ≤ 0xDBFF

/-- A trailing (low) surrogate code unit. -/
def isTrailSurrogate (u : Nat) : Bool :=
  0xDC00 ≤ u && u ≤ 0xDFFF

/-- The lowercase hexadecimal digit of a number below 16. -/
def hexDigit (n : Nat) : Nat :=
  if n < 10 then 0x30 + n else 0x61 + (n - 10)

/-- ECMAScript `UnicodeEscape`: a backslash, `u` and four lowercase hexadecimal
digits. -/
def unicodeEscape (u : Nat) : JSString :=
  [0x5C, 0x75, hexDigit (u / 4096 % 16), hexDigit (u / 256 % 16), hexDigit (u / 16 % 16),
    hexDigit (u % 16)]

/-- What `QuoteJSONString` appends for a code point that is a single code unit
and not a leading surrogate: the two-character escapes of its table, a
`UnicodeEscape` for the other control characters and for a (lone) trailing
surrogate, the unit itself otherwise. -/
def escapeUnit (u : Nat) : JSString :=
  if u = 0x08 then [0x5C, 0x62]
  else if u = 0x09 then [0x5C, 0x74]
  else if u = 0x0A then [0x5C, 0x6E]
  else if u = 0x0C then [0x5C, 0x66]
  else if u = 0x0D then [0x5C, 0x72]
  else if u = 0x22 then [0x5C, 0x22]
  else if u = 0x5C then [0x5C, 0x5C]
  else if u < 0x20 || isTrailSurrogate u then unicodeEscape u
  else [u]

/-- The characters `QuoteJSONString` puts between the two quotation marks.  The
code points of the string are read as `StringToCodePoints` does: a leading
surrogate followed by a trailing one is one code point and is copied as it is,
any other surrogate is a code point of its own and is escaped. -/
def quoteBody : JSString → JSString
  | [] => []
  | [u] => if isLeadSurrogate u then unicodeEscape u else escapeUnit u
  | u :: l :: rest =>
    if isLeadSurrogate u then
      if isTrailSurrogate l then u :: l :: quoteBody rest
      else unicodeEscape u ++ quoteBody (l :: rest)
    else escapeUnit u ++ quoteBody (l :: rest)

/-- ECMAScript `QuoteJSONString`: `JSON.stringify` of a string. -/
def quoteJSONString (s : JSString) : JSString :=
  [0x22] ++ quoteBody s ++ [0x22]

/-- `JSON.stringify` of a task record `{ id, text, completed }`: its own
properties in creation order, no white space. -/
def stringifyTask (t : Task) : JSString :=
  js "\x7b\"id\":" ++ quoteJSONString t.id ++ js ",\"text\":" ++ quoteJSONString t.text ++
    js ",\"completed\":" ++ (if t.completed then js "true" else js "false") ++ js "\x7d"

/-- The elements of a serialized array, separated by commas. -/
def stringifyElements : List Task → JSString
  | [] => []
  | [t] => stringifyTask t
  | t :: rest => stringifyTask t ++ js "," ++ stringifyElements rest

/-- `JSON.stringify` of a task list. -/
def stringifyTasks (L : List Task) : JSString :=
  js "[" ++ stringifyElements L ++ js "]"

/-! ## JSON values: `JSON.parse` -/

/-- A value `JSON.parse` returns.  A number is kept as the code units of its
literal (its IEEE-754 value is not modelled); an object is the list of its own
properties in property order. -/
inductive JVal where
  | null
  | bool (b : Bool)
  | num (literal : JSString)
  | str (s : JSString)
  | arr (elems : List JVal)
  | obj (props : List (JSString × JVal))

/-- The exceptions the storage adapter can meet. -/
inductive JSError where
  | syntaxError
  | typeError
  | securityError
  | quotaExceededError
  deriving DecidableEq, Repr

/-- JSON white space: TAB, LF, CR, SP. -/
def isJsonWs (u : Nat) : Bool :=
  u == 0x09 || u == 0x0A || u == 0x0D || u == 0x20

/-- Skips JSON white space. -/
def skipWs (s : JSString) : JSString :=
  s.dropWhile isJsonWs

/-- A decimal digit. -/
def isDigit (u : Nat) : Bool :=
  0x30 ≤ u && u ≤ 0x39

/-- The value of a hexadecimal digit, upper or lower case. -/
def hexVal (u : Nat) : Option Nat :=
  if 0x30 ≤ u && u ≤ 0x39 then some (u - 0x30)
  else if 0x41 ≤ u && u ≤ 0x46 then some (u - 0x41 + 10)
  else if 0x61 ≤ u && u ≤ 0x66 then some (u - 0x61 + 10)
  else none

/-- The code unit a `u` escape with the four hexadecimal digits `a b c d`
stands for. -/
def hex4 (a b c d : Nat) : Option Nat :=
  match hexVal a, hexVal b, hexVal c, hexVal d with
  | some x, some y, some z, some w => some (x * 4096 + y * 256 + z * 16 + w)
  | _, _, _, _ => none

/-- The code unit a single-character escape stands for. -/
def unescape (e : Nat) : Option Nat :=
  if e = 0x22 then some 0x22
  else if e = 0x5C then some 0x5C
  else if e = 0x2F then some 0x2F
  else if e = 0x62 then some 0x08
  else if e = 0x66 then some 0x0C
  else if e = 0x6E then some 0x0A
  else if e = 0x72 then some 0x0D
  else if e = 0x74 then some 0x09
  else none

/-- Reads a JSON string after its opening quotation mark: the string and the
text after the closing quotation mark. -/
def parseStringBody : JSString → Option (JSString × JSString)
  | [] => none
  | u :: rest =>
    if u = 0x22 then some ([], rest)
    else if u = 0x5C then
      match rest with
      | [] => none
      | e :: rest1 =>
        if e = 0x75 then
          match rest1 with
          | a :: b :: c :: d :: rest2 =>
            match hex4 a b c d with
            | some v => (parseStringBody rest2).map (fun r => (v :: r.1, r.2))
            | none => none
          | _ => none
        else
          match unescape e with
          | some v => (parseStringBody rest1).map (fun r => (v :: r.1, r.2))
          | none => none
    else if u < 0x20 then none
    else (parseStringBody rest).map (fun r => (u :: r.1, r.2))

/-- Removes the literal `lit` from the front of the text. -/
def stripLit : JSString → JSString → Option JSString
  | [], s => some s
  | _ :: _, [] => none
  | c :: lit, u :: s => if c = u then stripLit lit s else none

/-- Reads one or more decimal digits. -/
def parseDigits (s : JSString) : Option (JSString × JSString) :=
  if (s.takeWhile isDigit).isEmpty then none
  else some (s.takeWhile isDigit, s.dropWhile isDigit)

/-- Reads the integer part of a number: `0`, or a digit from 1 to 9 followed by
digits. -/
def parseInt (s : JSString) : Option (JSString × JSString) :=
  match s with
  | [] => none
  | d :: rest =>
    if d = 0x30 then some ([d], rest)
    else if isDigit d then some (d :: rest.takeWhile isDigit, rest.dropWhile isDigit)
    else none

/-- Reads the optional fraction of a number. -/
def parseFrac (s : JSString) : Option (JSString × JSString) :=
  match s with
  | [] => some ([], [])
  | u :: rest =>
    if u = 0x2E then (parseDigits rest).map (fun r => (u :: r.1, r.2))
    else some ([], s)

/-- Reads the optional exponent of a number. -/
def parseExp (s : JSString) : Option (JSString × JSString) :=
  match s with
  | [] => some ([], [])
  | e :: rest =>
    if e = 0x65 || e = 0x45 then
      match rest with
      | [] => none
      | g :: rest1 =>
        if g = 0x2B || g = 0x2D then (parseDigits rest1).map (fun r => (e :: g :: r.1, r.2))
        else (parseDigits rest).map (fun r => (e :: r.1, r.2))
    else some ([], s)

/-- Reads the optional minus sign of a number. -/
def parseSign (s : JSString) : JSString × JSString :=
  match s with
  | [] => ([], [])
  | u :: rest => if u = 0x2D then ([u], rest) else ([], s)

/-- Reads a JSON number: the code units of the literal and the text after it. -/
def parseNumber (s : JSString) : Option (JSString × JSString) :=
  match parseInt (parseSign s).2 with
  | none => none
  | some (i, s1) =>
    match parseFrac s1 with
    | none => none
    | some (f, s2) =>
      match parseExp s2 with
      | none => none
      | some (x, s3) => some ((parseSign s).1 ++ i ++ f ++ x, s3)

/-- The array index a property key denotes, if it is one: a canonical decimal
numeral below `2^32 - 1`. -/
def arrayIndex (k : JSString) : Option Nat :=
  match k with
  | [] => none
  | d :: rest =>
    if k.all isDigit && (d != 0x30 || rest.isEmpty) then
      let n := k.foldl (fun acc u => acc * 10 + (u - 0x30)) 0
      if n < 4294967295 then some n else none
    else none

/-- Puts a new array-index key in its place among the array-index keys, which
come first and in ascending order. -/
def insertIndexKey (n : Nat) (k : JSString) (v : JVal) :
    List (JSString × JVal) → List (JSString × JVal)
  | [] => [(k, v)]
  | p :: ps =>
    match arrayIndex p.1 with
    | some m => if m < n then p :: insertIndexKey n k v ps else (k, v) :: p :: ps
    | none => (k, v) :: p :: ps

/-- `CreateDataProperty` on an ordinary object: an existing key keeps its place
and gets the new value; a new array-index key goes among the array-index keys;
any other new key goes last. -/
def setProp (ps : List (JSString × JVal)) (k : JSString) (v : JVal) : List (JSString × JVal) :=
  if ps.any (fun p => p.1 = k) then ps.map (fun p => if p.1 = k then (k, v) else p)
  else
    match arrayIndex k with
    | some n => insertIndexKey n k v ps
    | none => ps ++ [(k, v)]

/-- The object built from the members of an object literal, in source order. -/
def mkObject (members : List (JSString × JVal)) : List (JSString × JVal) :=
  members.foldl (fun ps m => setProp ps m.1 m.2) []

mutual

/-- Reads one JSON value at the front of the text (no leading white space). -/
def parseValue : Nat → JSString → Option (JVal × JSString)
  | 0, _ => none
  | fuel + 1, s =>
    match s with
    | [] => none
    | u :: rest =>
      if u = 0x22 then (parseStringBody rest).map (fun r => (JVal.str r.1, r.2))
      else if u = 0x5B then
        match skipWs rest with
        | [] => none
        | c :: rest1 =>
          if c = 0x5D then some (JVal.arr [], rest1)
          else (parseElements fuel (c :: rest1)).map (fun r => (JVal.arr r.1, r.2))
      else if u = 0x7B then
        match skipWs rest with
        | [] => none
        | c :: rest1 =>
          if c = 0x7D then some (JVal.obj [], rest1)
          else (parseMembers fuel (c :: rest1)).map (fun r => (JVal.obj (mkObject r.1), r.2))
      else if u = 0x74 then (stripLit (js "true") s).map (fun r => (JVal.bool true, r))
      else if u = 0x66 then (stripLit (js "false") s).map (fun r => (JVal.bool false, r))
      else if u = 0x6E then (stripLit (js "null") s).map (fun r => (JVal.null, r))
      else (parseNumber s).map (fun r => (JVal.num r.1, r.2))

/-- Reads the elements of an array up to and including the closing bracket. -/
def parseElements : Nat → JSString → Option (List JVal × JSString)
  | 0, _ => none
  | fuel + 1, s =>
    match parseValue fuel s with
    | none => none
    | some (v, rest) =>
      match skipWs rest with
      | [] => none
      | c :: rest1 =>
        if c = 0x2C then (parseElements fuel (skipWs rest1)).map (fun r => (v :: r.1, r.2))
        else if c = 0x5D then some ([v], rest1)
        else none

/-- Reads the members of an object up to and including the closing brace. -/
def parseMembers : Nat → JSString → Option (List (JSString × JVal) × JSString)
  | 0, _ => none
  | fuel + 1, s =>
    match s with
    | [] => none
    | q :: rest =>
      if q = 0x22 then
        match parseStringBody rest with
        | none => none
        | some (k, rest1) =>
          match skipWs rest1 with
          | [] => none
          | c :: rest2 =>
            if c = 0x3A then
              match parseValue fuel (skipWs rest2) with
              | none => none
              | some (v, rest3) =>
                match skipWs rest3 with
                | [] => none
                | e :: rest4 =>
                  if e = 0x2C then
                    (parseMembers fuel (skipWs rest4)).map (fun r => ((k, v) :: r.1, r.2))
                  else if e = 0x7D then some ([(k, v)], rest4)
                  else none
            else none
      else none

end

/-- `JSON.parse(text)`: the value, or a `SyntaxError`.  The recursion of the
reader is bounded by a fuel that twice the length of the text exhausts never
(`jsonParse_fuel_adequate`). -/
def jsonParse (text : JSString) : Except JSError JVal :=
  match parseValue (2 * text.length + 2) (skipWs text) with
  | some (v, rest) => if (skipWs rest).isEmpty then .ok v else .error .syntaxError
  | none => .error .syntaxError

/-! ## The storage adapter `useLocalStorage` -/

/-- The browser store behind `localStorage`: its key/value pairs, whether it
can be accessed at all (a disabled store throws on every access), and how many
code units of keys and values it accepts before `setItem` throws. -/
structure Storage where
  items : List (JSString × JSString)
  accessible : Bool
  quota : Nat

/-- The code units the pairs of a store take up. -/
def storageSize (items : List (JSString × JSString)) : Nat :=
  (items.map (fun p => p.1.length + p.2.length)).sum

/-- The call `localStorage.getItem(key)`: `null` (`none`) for an absent key. -/
def getItem (st : Storage) (key : JSString) : Except JSError (Option JSString) :=
  if st.accessible then .ok ((st.items.find? (fun p => p.1 = key)).map (fun p => p.2))
  else .error .securityError

/-- The call `localStorage.setItem(key, value)`. -/
def setItem (st : Storage) (key value : JSString) : Except JSError Storage :=
  if st.accessible then
    let items := (key, value) :: st.items.filter (fun p => p.1 ≠ key)
    if storageSize items ≤ st.quota then .ok { st with items := items }
    else .error .quotaExceededError
  else .error .securityError

/-- The initializer of the state cell of `useLocalStorage`: the load path.  The
result `raw` of `getItem` is falsy when it is `null` or the empty string. -/
def load (st : Storage) (key : JSString) (initial : JVal) : JVal :=
  match getItem st key with
  | .error _ => initial
  | .ok none => initial
  | .ok (some raw) =>
    if truthyStr raw then
      match jsonParse raw with
      | .ok v => v
      | .error _ => initial
    else initial

/-- The effect of `useLocalStorage`, given the text `JSON.stringify(val)`: the
save path.  A failed write is dropped. -/
def save (st : Storage) (key json : JSString) : Storage :=
  match setItem st key json with
  | .ok st1 => st1
  | .error _ => st

/-- The value `JSON.parse` builds for the text of a task record. -/
def taskToJVal (t : Task) : JVal :=
  JVal.obj [(js "id", JVal.str t.id), (js "text", JVal.str t.text),
    (js "completed", JVal.bool t.completed)]

/-- A task list as a JavaScript value. -/
def tasksToJVal (L : List Task) : JVal :=
  JVal.arr (L.map taskToJVal)

/-- Reads a record `{ id, text, completed }` back from a value. -/
def taskOfJVal : JVal → Option Task
  | JVal.obj [(k1, JVal.str i), (k2, JVal.str t), (k3, JVal.bool c)] =>
    if k1 = js "id" ∧ k2 = js "text" ∧ k3 = js "completed" then
      some { id := i, text := t, completed := c }
    else none
  | _ => none

/-- Reads the elements of a task list back from values. -/
def tasksOfElems : List JVal → Option (List Task)
  | [] => some []
  | v :: vs =>
    match taskOfJVal v, tasksOfElems vs with
    | some t, some ts => some (t :: ts)
    | _, _ => none

/-- Reads a task list back from a value. -/
def tasksOfJVal : JVal → Option (List Task)
  | JVal.arr vs => tasksOfElems vs
  | _ => none

/-- The save path for the `tasks` cell. -/
def saveTasks (st : Storage) (L : List Task) : Storage :=
  save st (js "tasks") (stringifyTasks L)

/-- The save path for the `theme` cell. -/
def saveTheme (st : Storage) (theme : JSString) : Storage :=
  save st (js "theme") (quoteJSONString theme)

/-- The constant `themeOptions`: value and label of each theme. -/
def themeOptions : List (JSString × JSString) :=
  [(js "light", js "Light"), (js "dark", js "Dark"), (js "monokai", js "Monokai"),
   (js "apple", js "Apple"), (js "purple-dark", js "Purple Dark"), (js "cyan", js "Cyan")]

/-- The receiver of the calls `tasks.filter(...)` and `tasks.map(...)` of the
render: the elements when `tasks` is an array.  On `null` the property access
throws a `TypeError`, and no other value `JSON.parse` returns has a callable
`filter`, so the call throws a `TypeError` as well. -/
def arrayReceiver (tasks : JVal) : Except JSError (List JVal) :=
  match tasks with
  | JVal.arr elems => .ok elems
  | _ => .error .typeError

/-- A store that holds `raw` under the key `tasks`. -/
def storeWithTasks (raw : JSString) : Storage :=
  { items := [(js "tasks", raw)], accessible := true, quota := 5242880 }

/-- An empty store. -/
def emptyStore : Storage :=
  { items := [], accessible := true, quota := 5242880 }

/-- A store that is full: it holds `[]` under the key `tasks` and has no room
for anything longer. -/
def fullStore : Storage :=
  { items := [(js "tasks", js "[]")], accessible := true, quota := 7 }

/-- A disabled store: every access throws. -/
def disabledStore : Storage :=
  { items := [], accessible := false, quota := 5242880 }

/-! ## Sample states -/

/-- A one-task list: the task "Buy milk" with id "7-a", not completed. -/
def sampleTasks : List Task :=
  [{ id := js "7-a", text := js "Buy milk", completed := false }]

/-- A state holding `sampleTasks` with no row being edited. -/
def sampleIdle : State :=
  { initialState with tasks := sampleTasks }

/-- A state holding `sampleTasks` whose row "7-a" is being edited, with the
scratch text "Buy m". -/
def sampleEditing : State :=
  { tasks := sampleTasks, newTask := [], editingId := some (js "7-a"),
    editingText := js "Buy m", announce := [] }

/-! # Theorems -/

/-! ## Trimming -/

theorem truthyStr_eq_false_iff (s : JSString) : truthyStr s = false ↔ s = [] := by
  cases s <;> simp [truthyStr]

theorem truthyStr_eq_true_iff (s : JSString) : truthyStr s = true ↔ s ≠ [] := by
  cases s <;> simp [truthyStr]

theorem head_dropWhile_isWhiteSpace (l : JSString) (u : Nat)
    (h : (l.dropWhile isWhiteSpace).head? = some u) : isWhiteSpace u = false := by
  have h1 := List.head?_dropWhile_not isWhiteSpace l
  rw [h] at h1
  exact h1

theorem trimStart_split (s : JSString) :
    s = s.takeWhile isWhiteSpace ++ trimStart s :=
  (List.takeWhile_append_dropWhile isWhiteSpace s).symm

theorem trimEnd_split (m : JSString) :
    m = trimEnd m ++ (m.reverse.takeWhile isWhiteSpace).reverse := by
  unfold trimEnd
  rw [← List.reverse_append, List.takeWhile_append_dropWhile, List.reverse_reverse]

/-- The trimmed string sits inside the original one between two runs of white
space, and neither starts nor ends with white space. -/
theorem trim_decomposition (s : JSString) :
    ∃ pre post : JSString, s = pre ++ trim s ++ post ∧
      (∀ u ∈ pre, isWhiteSpace u = true) ∧ (∀ u ∈ post, isWhiteSpace u = true) ∧
      (∀ u, (trim s).head? = some u → isWhiteSpace u = false) ∧
      (∀ u, (trim s).getLast? = some u → isWhiteSpace u = false) := by
  refine ⟨s.takeWhile isWhiteSpace, ((trimStart s).reverse.takeWhile isWhiteSpace).reverse,
    ?_, ?_, ?_, ?_, ?_⟩
  · have h1 := trimStart_split s
    have h2 := trimEnd_split (trimStart s)
    unfold trim
    rw [List.append_assoc, ← h2, ← h1]
  · intro u hu
    exact List.mem_takeWhile_imp hu
  · intro u hu
    exact List.mem_takeWhile_imp (List.mem_reverse.mp hu)
  · intro u hu
    have h2 := trimEnd_split (trimStart s)
    have hne : trim s ≠ [] := by
      intro h0
      rw [h0] at hu
      cases hu
    have h3 : (trimStart s).head? = some u := by
      rw [h2]
      exact (List.head?_append_of_ne_nil (trim s) hne).trans hu
    exact head_dropWhile_isWhiteSpace s u h3
  · intro u hu
    unfold trim trimEnd at hu
    rw [List.getLast?_reverse] at hu
    exact head_dropWhile_isWhiteSpace _ u hu

/-- A string trims to the empty string exactly when it is made of white space
only. -/
theorem trim_eq_nil_iff (s : JSString) : trim s = [] ↔ ∀ u ∈ s, isWhiteSpace u = true := by
  constructor
  · intro h u hu
    obtain ⟨pre, post, hs, hpre, hpost, -, -⟩ := trim_decomposition s
    rw [h, List.append_nil] at hs
    rw [hs] at hu
    rcases List.mem_append.mp hu with h1 | h1
    · exact hpre u h1
    · exact hpost u h1
  · intro h
    have h1 : trimStart s = [] := List.dropWhile_eq_nil_iff.mpr h
    unfold trim
    rw [h1]
    rfl

/-! ## addTask -/

/-- C1: `addTask` with a pending input that trims to the empty string returns the
state unchanged; otherwise it puts the record `{id: i, text: trim s, completed:
false}` in front of the old list, clears the pending input and announces
"Added task: " followed by the trimmed text.  Adding "Buy milk" to the empty
list gives the one-element list with that text and `completed = false`, a
white-space-only input changes nothing, and a record that `addTask` adds never
has an empty text. -/
theorem addTask_spec (st : State) (i : JSString) :
    (trim st.newTask = [] → addTask st i = st) ∧
    (trim st.newTask ≠ [] →
      (addTask st i).tasks = { id := i, text := trim st.newTask, completed := false } :: st.tasks ∧
      (addTask st i).newTask = [] ∧
      (addTask st i).announce = js "Added task: " ++ trim st.newTask ∧
      (addTask st i).editingId = st.editingId ∧
      (addTask st i).editingText = st.editingText) ∧
    ((∀ u ∈ st.newTask, isWhiteSpace u = true) → addTask st i = st) ∧
    (addTask { initialState with newTask := js "Buy milk" } i).tasks
      = [{ id := i, text := js "Buy milk", completed := false }] ∧
    (addTask { st with newTask := js "   " } i).tasks = st.tasks ∧
    ((addTask st i).tasks = st.tasks ∨
      ∃ t, (addTask st i).tasks = t :: st.tasks ∧ t.text ≠ [] ∧ t.completed = false ∧ t.id = i) := by
  have hempty : trim st.newTask = [] → addTask st i = st := by
    intro h
    simp [addTask, h, truthyStr]
  have hfull : trim st.newTask ≠ [] →
      addTask st i = { st with
        tasks := { id := i, text := trim st.newTask, completed := false } :: st.tasks
        newTask := []
        announce := js "Added task: " ++ trim st.newTask } := by
    intro h
    have h1 : truthyStr (trim st.newTask) = true := (truthyStr_eq_true_iff _).mpr h
    simp [addTask, h1]
  refine ⟨hempty, ?_, ?_, ?_, ?_, ?_⟩
  · intro h
    rw [hfull h]
    exact ⟨rfl, rfl, rfl, rfl, rfl⟩
  · intro h
    exact hempty ((trim_eq_nil_iff _).mpr h)
  · rfl
  · rfl
  · by_cases h : trim st.newTask = []
    · left
      rw [hempty h]
    · right
      refine ⟨{ id := i, text := trim st.newTask, completed := false }, ?_, h, rfl, rfl⟩
      rw [hfull h]

/-! ## toggleTask -/

/-- C4: applying `toggleTask` twice with the same id gives back the state it
started from: the list has the same length and order and every record has the
id, text and completed flag it had. -/
theorem toggleTask_twice (st : State) (i : JSString) :
    toggleTask (toggleTask st i) i = st ∧
    (toggleTask (toggleTask st i) i).tasks = st.tasks ∧
    (toggleTask (toggleTask st i) i).tasks.length = st.tasks.length ∧
    (toggleTask (toggleTask st i) i).tasks.map (fun t => t.completed)
      = st.tasks.map (fun t => t.completed) := by
  have h : toggleTask (toggleTask st i) i = st := by
    cases st with
    | mk tasks newTask editingId editingText announce =>
      simp only [toggleTask, List.map_map, State.mk.injEq, and_true]
      apply List.map_id''
      intro t
      cases t with
      | mk tid ttext tdone =>
        by_cases hid : tid = i
        · simp [Function.comp, hid]
        · simp [Function.comp, hid]
  refine ⟨h, ?_, ?_, ?_⟩ <;> rw [h]

/-! ## Progress display -/

/-- C10: the displayed denominator (text count and `max` of the bar) is
`max total 1`; the displayed numerator (text count and `value` of the bar) is
`completed` when `total > 0` and `0` when `total = 0`; the empty list and a
one-element list with an uncompleted task display 0/1; the numerator never
exceeds the denominator. -/
theorem progress_spec (L : List Task) :
    completed L = L.countP (fun t => t.completed) ∧
    (progressCount L).2 = max (total L) 1 ∧
    progressMax L = max (total L) 1 ∧
    (0 < total L → (progressCount L).1 = completed L ∧ progressValue L = completed L) ∧
    (total L = 0 → (progressCount L).1 = 0 ∧ progressValue L = 0) ∧
    progressCount [] = (0, 1) ∧ progressValue [] = 0 ∧ progressMax [] = 1 ∧
    (∀ t : Task, t.completed = false →
      progressCount [t] = (0, 1) ∧ progressValue [t] = 0 ∧ progressMax [t] = 1) ∧
    (progressCount L).1 ≤ (progressCount L).2 ∧
    progressValue L ≤ progressMax L := by
  have hle : completed L ≤ total L := by
    unfold completed total
    exact List.length_filter_le _ _
  refine ⟨?_, ?_, rfl, ?_, ?_, rfl, rfl, rfl, ?_, ?_, ?_⟩
  · unfold completed
    rw [List.countP_eq_length_filter]
  · simp only [progressCount, totalOrOne]
    split <;> omega
  · intro h
    refine ⟨rfl, ?_⟩
    simp only [progressValue]
    split <;> omega
  · intro h
    have h0 : completed L = 0 := by omega
    refine ⟨h0, ?_⟩
    simp [progressValue, h]
  · intro t ht
    simp [progressCount, progressValue, progressMax, completed, total, totalOrOne, ht]
  · simp only [progressCount, totalOrOne]
    split <;> omega
  · simp only [progressValue, progressMax]
    split <;> omega

/-! ## removeTask -/

theorem find_eq_some_of_nodup (L : List Task) (i : JSString) (hnd : (ids L).Nodup)
    (r : Task) (hr : r ∈ L) (hid : r.id = i) :
    L.find? (fun x => x.id = i) = some r := by
  induction L with
  | nil => cases hr
  | cons a t ih =>
    have hnd2 : a.id ∉ ids t ∧ (ids t).Nodup := List.nodup_cons.mp hnd
    rcases List.mem_cons.mp hr with rfl | h1
    · simp [List.find?_cons, hid]
    · have hne : a.id ≠ i := by
        intro ha
        apply hnd2.1
        rw [ha, ← hid]
        exact List.mem_map_of_mem (fun t => t.id) h1
      simp only [List.find?_cons, hne, decide_False]
      exact ih hnd2.2 h1

theorem textOr_of_ne_nil (r : Task) (d : JSString) (h : r.text ≠ []) :
    textOr (some r) d = r.text := by
  simp [textOr, (truthyStr_eq_true_iff r.text).mpr h]

/-- C3: on a list whose records have non-empty text, `removeTask i` keeps exactly
the records whose id differs from `i`, unchanged and in their original order
(removing the only task of a one-task list leaves the empty list), and
announces "Deleted task: " followed by the text of the record with id `i`, or
followed by the placeholder "task" when no record has id `i`. -/
theorem removeTask_spec (st : State) (i : JSString) (htext : ∀ t ∈ st.tasks, t.text ≠ []) :
    (removeTask st i).tasks = st.tasks.filter (fun t => t.id ≠ i) ∧
    (∀ t, t ∈ (removeTask st i).tasks ↔ (t ∈ st.tasks ∧ t.id ≠ i)) ∧
    List.Sublist (removeTask st i).tasks st.tasks ∧
    (∀ t, st.tasks = [t] → t.id = i → (removeTask st i).tasks = []) ∧
    (∀ r, st.tasks.find? (fun x => x.id = i) = some r →
      (removeTask st i).announce = js "Deleted task: " ++ r.text) ∧
    ((ids st.tasks).Nodup → ∀ r ∈ st.tasks, r.id = i →
      (removeTask st i).announce = js "Deleted task: " ++ r.text) ∧
    ((∀ t ∈ st.tasks, t.id ≠ i) →
      (removeTask st i).announce = js "Deleted task: " ++ js "task") := by
  have hfound : ∀ r, st.tasks.find? (fun x => x.id = i) = some r →
      (removeTask st i).announce = js "Deleted task: " ++ r.text := by
    intro r hr
    have hmem : r ∈ st.tasks := List.mem_of_find?_eq_some hr
    simp only [removeTask, hr, textOr_of_ne_nil r _ (htext r hmem)]
  refine ⟨rfl, ?_, ?_, ?_, hfound, ?_, ?_⟩
  · intro t
    simp [removeTask]
  · exact List.filter_sublist _
  · intro t ht hid
    simp [removeTask, ht, hid]
  · intro hnd r hr hid
    exact hfound r (find_eq_some_of_nodup st.tasks i hnd r hr hid)
  · intro h
    have hnone : st.tasks.find? (fun x => x.id = i) = none := by
      rw [List.find?_eq_none]
      intro x hx
      simpa using h x hx
    simp only [removeTask, hnone, textOr]

/-- Witness of `removeTask_spec`: deleting the only task "Buy milk". -/
theorem removeTask_spec_witness :
    (removeTask sampleIdle (js "7-a")).tasks = [] ∧
    (removeTask sampleIdle (js "7-a")).announce
      = js "Deleted task: Buy milk" := by
  have h := removeTask_spec sampleIdle
    (js "7-a") (by decide)
  exact ⟨h.2.2.2.1 _ rfl rfl, (h.2.2.2.2.1 _ rfl).trans (by decide)⟩

/-! ## Operations on an id that matches no record -/

/-- C6, as the spec states it, fails for `beginEdit`: with the row "7-a" being
edited, `beginEdit` of an id that matches no record replaces the editing id and
empties the scratch text. -/
theorem beginEdit_missing_id_counterexample :
    (∀ t ∈ sampleEditing.tasks, t.id ≠ js "9-z") ∧
    (beginEdit sampleEditing (js "9-z")).editingId ≠ sampleEditing.editingId ∧
    (beginEdit sampleEditing (js "9-z")).editingText ≠ sampleEditing.editingText ∧
    (beginEdit sampleEditing (js "9-z")).editingId = some (js "9-z") ∧
    (beginEdit sampleEditing (js "9-z")).editingText = [] := by
  decide

/-- C6, amended: for an id that matches no record, `toggleTask` returns the
state unchanged, `removeTask` leaves the list, the editing id and the scratch
text unchanged, and `beginEdit` leaves the list unchanged, sets the editing id
to that id and the scratch text to the empty string, so that no row is in edit
mode. -/
theorem missing_id_ops (st : State) (i : JSString) (h : ∀ t ∈ st.tasks, t.id ≠ i) :
    toggleTask st i = st ∧
    (removeTask st i).tasks = st.tasks ∧
    (removeTask st i).editingId = st.editingId ∧
    (removeTask st i).editingText = st.editingText ∧
    (beginEdit st i).tasks = st.tasks ∧
    (beginEdit st i).editingId = some i ∧
    (beginEdit st i).editingText = [] ∧
    editingRows (beginEdit st i) = 0 := by
  have hnone : st.tasks.find? (fun x => x.id = i) = none := by
    rw [List.find?_eq_none]
    intro x hx
    simpa using h x hx
  refine ⟨?_, ?_, rfl, rfl, rfl, rfl, ?_, ?_⟩
  · cases st with
    | mk tasks newTask editingId editingText announce =>
      simp only [toggleTask, State.mk.injEq, and_true]
      have hcongr : tasks.map (fun t => if t.id = i then { t with completed := !t.completed } else t)
          = tasks.map id := by
        apply List.map_congr_left
        intro t ht
        simp [h t ht]
      rw [hcongr, List.map_id]
  · simp only [removeTask]
    rw [List.filter_eq_self]
    intro a ha
    simpa using h a ha
  · simp only [beginEdit, hnone, textOr]
  · simp only [editingRows, beginEdit, inEditMode]
    rw [List.length_eq_zero, List.filter_eq_nil_iff]
    intro a ha
    have hne : ¬ (i = a.id) := fun e => h a ha e.symm
    simp [inEditMode, hne]

/-- Witness of `missing_id_ops`: the id "9-z" in a list holding only "7-a". -/
theorem missing_id_ops_witness :
    toggleTask sampleIdle (js "9-z")
      = sampleIdle :=
  (missing_id_ops sampleIdle (js "9-z")
    (by decide)).1

/-! ## The editing state -/

theorem editingRows_of_not_mem (st : State) (e : JSString) (hed : st.editingId = some e)
    (h : ∀ t ∈ st.tasks, t.id ≠ e) : editingRows st = 0 := by
  simp only [editingRows]
  rw [List.length_eq_zero, List.filter_eq_nil_iff]
  intro a ha
  have hne : ¬ (e = a.id) := fun he => h a ha he.symm
  simp [inEditMode, hed, hne]

/-- C7, as the spec states it, fails: with the row "7-a" being edited,
`removeTask` of that row leaves the editing id set. -/
theorem removeTask_editing_counterexample :
    sampleEditing.editingId = some (js "7-a") ∧
    js "7-a" ∈ ids sampleEditing.tasks ∧
    (removeTask sampleEditing (js "7-a")).editingId ≠ none := by
  decide

/-- C7, amended: the editing id starts as "no row editing"; `beginEdit` sets
it, `saveEdit` and `cancelEdit` clear it.  `removeTask R` while row `R` is being
edited leaves the editing id (still `R`) and the scratch text as they were; the
row being edited does not render its Delete button, and after `removeTask R` no
record has id `R`, so no row is rendered in edit mode. -/
theorem editing_state_machine (st : State) (R : JSString)
    (hed : st.editingId = some R) (hin : R ∈ ids st.tasks) :
    initialState.editingId = none ∧
    (∀ (s0 : State) (i : JSString), (beginEdit s0 i).editingId = some i) ∧
    (saveEdit st).editingId = none ∧
    (cancelEdit st).editingId = none ∧
    (removeTask st R).editingId = some R ∧
    (removeTask st R).editingText = st.editingText ∧
    (∀ t ∈ (removeTask st R).tasks, t.id ≠ R) ∧
    editingRows (removeTask st R) = 0 ∧
    (∀ t ∈ st.tasks, t.id = R → rowActionsShown st t = false) ∧
    (∃ t ∈ st.tasks, inEditMode st t = true) := by
  have hgone : ∀ t ∈ (removeTask st R).tasks, t.id ≠ R := by
    intro t ht
    simp only [removeTask, List.mem_filter] at ht
    simpa using ht.2
  refine ⟨rfl, fun _ _ => rfl, ?_, rfl, hed, rfl, hgone, ?_, ?_, ?_⟩
  · simp only [saveEdit]
    split <;> rfl
  · exact editingRows_of_not_mem (removeTask st R) R hed hgone
  · intro t _ hid
    simp [rowActionsShown, hed, hid]
  · simp only [ids, List.mem_map] at hin
    obtain ⟨t, ht, hid⟩ := hin
    exact ⟨t, ht, by simp [inEditMode, hed, hid]⟩

/-- Witness of `editing_state_machine`: the row "7-a" is being edited and is
removed. -/
theorem editing_state_machine_witness :
    (removeTask sampleEditing (js "7-a")).editingId = some (js "7-a") ∧
    editingRows (removeTask sampleEditing (js "7-a")) = 0 :=
  have h := editing_state_machine
    sampleEditing
    (js "7-a") rfl (by decide)
  ⟨h.2.2.2.2.1, h.2.2.2.2.2.2.2.1⟩

/-! ## saveEdit -/

theorem countP_id_eq_zero (L : List Task) (e : JSString) (h : e ∉ ids L) :
    L.countP (fun t => t.id = e) = 0 := by
  rw [List.countP_eq_zero]
  intro t ht hte
  apply h
  have hid : t.id = e := by simpa using hte
  rw [← hid]
  exact List.mem_map_of_mem (fun t => t.id) ht

theorem countP_id_le_one (L : List Task) (e : JSString) (hnd : (ids L).Nodup) :
    L.countP (fun t => t.id = e) ≤ 1 := by
  induction L with
  | nil => simp
  | cons a t ih =>
    have hnd2 : a.id ∉ ids t ∧ (ids t).Nodup := List.nodup_cons.mp hnd
    by_cases hae : a.id = e
    · have h0 := countP_id_eq_zero t e (hae ▸ hnd2.1)
      rw [List.countP_cons_of_pos _ _ (by simpa using hae), h0]
    · rw [List.countP_cons_of_neg _ _ (by simpa using hae)]
      exact ih hnd2.2

theorem countP_id_eq_one (L : List Task) (e : JSString) (hnd : (ids L).Nodup)
    (hin : e ∈ ids L) : L.countP (fun t => t.id = e) = 1 := by
  have hle := countP_id_le_one L e hnd
  have hpos : 0 < L.countP (fun t => t.id = e) := by
    rw [List.countP_pos_iff]
    simp only [ids, List.mem_map] at hin
    obtain ⟨t, ht, hid⟩ := hin
    exact ⟨t, ht, by simpa using hid⟩
  omega

/-- The record `{ ...t, text }` when `t.id === e`, and `t` otherwise. -/
theorem saveEdit_tasks (st : State) (e : JSString) (hed : st.editingId = some e)
    (h : trim st.editingText ≠ []) :
    saveEdit st = { st with
      tasks := st.tasks.map
        (fun t => if t.id = e then { t with text := trim st.editingText } else t)
      announce := js "Edited task: " ++ trim st.editingText
      editingId := none } := by
  have h1 : truthyStr (trim st.editingText) = true := (truthyStr_eq_true_iff _).mpr h
  simp [saveEdit, h1, hed]

theorem saveEdit_of_trim_nil (st : State) (h : trim st.editingText = []) :
    saveEdit st = { st with editingId := none } := by
  simp [saveEdit, h, truthyStr]

/-- C2: in a state whose ids are pairwise distinct and whose editing id `e`
names a record, `saveEdit` with a scratch text that trims to the empty string
leaves the list and the announcement unchanged and clears the editing id;
otherwise the record with id `e` gets the trimmed text, ids, completed flags,
every other text and the order are unchanged, the announcement is
"Edited task: " followed by the trimmed text and the editing id is cleared.
The scratch text " Buy eggs " commits "Buy eggs", and no text is empty afterwards
if none was before. -/
theorem saveEdit_spec (st : State) (e : JSString)
    (hnd : (ids st.tasks).Nodup) (hed : st.editingId = some e) (hin : e ∈ ids st.tasks) :
    (trim st.editingText = [] →
      (saveEdit st).tasks = st.tasks ∧ (saveEdit st).announce = st.announce ∧
      (saveEdit st).editingId = none) ∧
    (trim st.editingText ≠ [] →
      ids (saveEdit st).tasks = ids st.tasks ∧
      (saveEdit st).tasks.map (fun t => t.completed) = st.tasks.map (fun t => t.completed) ∧
      (saveEdit st).tasks.map (fun t => t.text)
        = st.tasks.map (fun t => if t.id = e then trim st.editingText else t.text) ∧
      (∃ r ∈ (saveEdit st).tasks, r.id = e ∧ r.text = trim st.editingText) ∧
      (∀ r ∈ (saveEdit st).tasks, r.id = e → r.text = trim st.editingText) ∧
      (∀ r ∈ (saveEdit st).tasks, r.id ≠ e → r ∈ st.tasks) ∧
      (saveEdit st).tasks.countP (fun t => t.id = e) = 1 ∧
      (saveEdit st).announce = js "Edited task: " ++ trim st.editingText ∧
      (saveEdit st).editingId = none) ∧
    (st.editingText = js " Buy eggs " →
      ∀ r ∈ (saveEdit st).tasks, r.id = e → r.text = js "Buy eggs") ∧
    ((∀ t ∈ st.tasks, t.text ≠ []) → ∀ t ∈ (saveEdit st).tasks, t.text ≠ []) ∧
    (saveEdit st).newTask = st.newTask := by
  have hmapmem : ∀ r, trim st.editingText ≠ [] → r ∈ (saveEdit st).tasks →
      ∃ t ∈ st.tasks, r = (if t.id = e then { t with text := trim st.editingText } else t) := by
    intro r h hr
    rw [saveEdit_tasks st e hed h] at hr
    obtain ⟨t, ht, hrt⟩ := List.mem_map.mp hr
    exact ⟨t, ht, hrt.symm⟩
  have hcommit : ∀ r, trim st.editingText ≠ [] → r ∈ (saveEdit st).tasks → r.id = e →
      r.text = trim st.editingText := by
    intro r h hr hid
    obtain ⟨t, -, hrt⟩ := hmapmem r h hr
    by_cases hte : t.id = e
    · rw [if_pos hte] at hrt
      rw [hrt]
    · rw [if_neg hte] at hrt
      rw [hrt] at hid
      exact absurd hid hte
  refine ⟨?_, ?_, ?_, ?_, ?_⟩
  · intro h
    rw [saveEdit_of_trim_nil st h]
    exact ⟨rfl, rfl, rfl⟩
  · intro h
    refine ⟨?_, ?_, ?_, ?_, fun r => hcommit r h, ?_, ?_, ?_, ?_⟩
    · rw [saveEdit_tasks st e hed h]
      simp only [ids, List.map_map]
      apply List.map_congr_left
      intro t _
      by_cases hte : t.id = e <;> simp [hte]
    · rw [saveEdit_tasks st e hed h]
      simp only [List.map_map]
      apply List.map_congr_left
      intro t _
      by_cases hte : t.id = e <;> simp [hte]
    · rw [saveEdit_tasks st e hed h]
      simp only [List.map_map]
      apply List.map_congr_left
      intro t _
      by_cases hte : t.id = e <;> simp [hte]
    · simp only [ids, List.mem_map] at hin
      obtain ⟨t, ht, hid⟩ := hin
      refine ⟨{ t with text := trim st.editingText }, ?_, hid, rfl⟩
      rw [saveEdit_tasks st e hed h]
      apply List.mem_map.mpr
      exact ⟨t, ht, by simp [hid]⟩
    · intro r hr hid
      obtain ⟨t, ht, hrt⟩ := hmapmem r h hr
      by_cases hte : t.id = e
      · rw [if_pos hte] at hrt
        rw [hrt] at hid
        exact absurd hte hid
      · rw [if_neg hte] at hrt
        rw [hrt]
        exact ht
    · rw [saveEdit_tasks st e hed h]
      simp only [List.countP_map]
      rw [← countP_id_eq_one st.tasks e hnd hin]
      apply List.countP_congr
      intro t _
      by_cases hte : t.id = e <;> simp [hte]
    · rw [saveEdit_tasks st e hed h]
    · rw [saveEdit_tasks st e hed h]
  · intro htxt r hr hid
    have ht : trim st.editingText = js "Buy eggs" := by
      rw [htxt]
      decide
    have hne : trim st.editingText ≠ [] := by
      rw [ht]
      decide
    rw [hcommit r hne hr hid, ht]
  · intro hall r hr
    by_cases h : trim st.editingText = []
    · rw [saveEdit_of_trim_nil st h] at hr
      exact hall r hr
    · obtain ⟨t, ht, hrt⟩ := hmapmem r h hr
      by_cases hte : t.id = e
      · rw [if_pos hte] at hrt
        rw [hrt]
        exact h
      · rw [if_neg hte] at hrt
        rw [hrt]
        exact hall t ht
  · simp only [saveEdit]
    split <;> rfl

/-- Witness of `saveEdit_spec`: the row "7-a" is being edited with scratch
text " Buy eggs ". -/
theorem saveEdit_spec_witness :
    (saveEdit { sampleEditing with editingText := js " Buy eggs " }).tasks
      = [{ id := js "7-a", text := js "Buy eggs", completed := false }] ∧
    (saveEdit { sampleEditing with editingText := js " Buy eggs " }).editingId = none :=
  have h := saveEdit_spec { sampleEditing with editingText := js " Buy eggs " } (js "7-a")
    (by decide) rfl (by decide)
  ⟨by decide, (h.2.1 (by decide)).2.2.2.2.2.2.2.2⟩


/-! ## At most one row in edit mode -/

theorem editingRows_le_one (s : State) (hnd : (ids s.tasks).Nodup) : editingRows s ≤ 1 := by
  unfold editingRows
  rw [← List.countP_eq_length_filter]
  cases hed : s.editingId with
  | none =>
    have h0 : s.tasks.countP (inEditMode s) = 0 := by
      rw [List.countP_eq_zero]
      intro t _
      simp [inEditMode, hed]
    omega
  | some e =>
    have hcongr : s.tasks.countP (inEditMode s) = s.tasks.countP (fun t => t.id = e) := by
      apply List.countP_congr
      intro t _
      simp only [inEditMode, hed, beq_iff_eq, Option.some.injEq, decide_eq_true_eq]
      exact eq_comm
    rw [hcongr]
    exact countP_id_le_one s.tasks e hnd

theorem ids_map_eq (L : List Task) (f : Task → Task) (hf : ∀ t, (f t).id = t.id) :
    ids (L.map f) = ids L := by
  simp only [ids, List.map_map]
  apply List.map_congr_left
  intro t _
  exact hf t

theorem nodup_step (s : State) (op : Op) (hnd : (ids s.tasks).Nodup)
    (hadm : admissible s op = true) : (ids (step s op).tasks).Nodup := by
  cases op with
  | input v => exact hnd
  | add uid =>
    simp only [step, addTask]
    split
    · exact hnd
    · simp only [ids, List.map_cons]
      refine List.nodup_cons.mpr ⟨?_, hnd⟩
      simpa [admissible, ids] using hadm
  | toggle id =>
    simp only [step, toggleTask]
    rw [ids_map_eq]
    · exact hnd
    · intro t
      by_cases h : t.id = id <;> simp [h]
  | beginEdit id => exact hnd
  | editInput v => exact hnd
  | saveEdit =>
    simp only [step, saveEdit]
    split
    · exact hnd
    · simp only
      rw [ids_map_eq]
      · exact hnd
      · intro t
        by_cases h : some t.id = s.editingId <;> simp [h]
  | cancelEdit => exact hnd
  | remove id =>
    simp only [step, removeTask, ids]
    exact (List.filter_sublist _).map _ |>.nodup hnd

theorem nodup_run (ops : List Op) (s : State) (hnd : (ids s.tasks).Nodup)
    (hadm : admissibleRun s ops = true) : (ids (run s ops).tasks).Nodup := by
  induction ops generalizing s with
  | nil => exact hnd
  | cons op rest ih =>
    simp only [admissibleRun, Bool.and_eq_true] at hadm
    exact ih (step s op) (nodup_step s op hnd hadm.1) hadm.2

/-- C5: in every state reached from the initial state by a finite sequence of
actions (typing, add, toggle, beginEdit, saveEdit, cancelEdit, remove, with
arbitrary arguments) in which every add is handed an id not yet in the list, at
most one position of the task list holds a record whose id is the editing id;
the ids of the list are pairwise distinct. -/
theorem at_most_one_editing (ops : List Op) (hadm : admissibleRun initialState ops = true) :
    editingRows (run initialState ops) ≤ 1 ∧
    (run initialState ops).tasks.countP (fun t => (run initialState ops).editingId = some t.id) ≤ 1 ∧
    (ids (run initialState ops).tasks).Nodup := by
  have hnd := nodup_run ops initialState (by simp [initialState, ids]) hadm
  have h1 := editingRows_le_one _ hnd
  refine ⟨h1, ?_, hnd⟩
  have heq : (run initialState ops).tasks.countP
      (fun t => (run initialState ops).editingId = some t.id) = editingRows (run initialState ops) := by
    unfold editingRows
    rw [← List.countP_eq_length_filter]
    apply List.countP_congr
    intro t _
    simp [inEditMode]
  omega

/-- Witness of `at_most_one_editing`: two tasks are added, the first one is
edited, and exactly one row is then in edit mode. -/
theorem at_most_one_editing_witness :
    editingRows (run initialState
      [Op.input (js "Buy milk"), Op.add (js "7-a"), Op.input (js "Call Bob"), Op.add (js "8-b"),
       Op.toggle (js "8-b"), Op.beginEdit (js "7-a")]) = 1 ∧
    editingRows (run initialState
      [Op.input (js "Buy milk"), Op.add (js "7-a"), Op.input (js "Call Bob"), Op.add (js "8-b"),
       Op.toggle (js "8-b"), Op.beginEdit (js "7-a")]) ≤ 1 :=
  ⟨by decide, (at_most_one_editing
      [Op.input (js "Buy milk"), Op.add (js "7-a"), Op.input (js "Call Bob"), Op.add (js "8-b"),
       Op.toggle (js "8-b"), Op.beginEdit (js "7-a")] (by decide)).1⟩


/-! ## JSON strings: quoting and reading back -/

theorem hexVal_hexDigit (n : Nat) (h : n < 16) : hexVal (hexDigit n) = some n := by
  interval_cases n <;> rfl

theorem hex4_unicodeEscape (u : Nat) (h : u < 65536) :
    hex4 (hexDigit (u / 4096 % 16)) (hexDigit (u / 256 % 16)) (hexDigit (u / 16 % 16))
      (hexDigit (u % 16)) = some u := by
  unfold hex4
  rw [hexVal_hexDigit _ (Nat.mod_lt _ (by norm_num)), hexVal_hexDigit _ (Nat.mod_lt _ (by norm_num)),
    hexVal_hexDigit _ (Nat.mod_lt _ (by norm_num)), hexVal_hexDigit _ (Nat.mod_lt _ (by norm_num))]
  simp only [Option.some.injEq]
  omega

theorem parseStringBody_unicodeEscape (u : Nat) (h : u < 65536) (tail : JSString) :
    parseStringBody (unicodeEscape u ++ tail)
      = (parseStringBody tail).map (fun r => (u :: r.1, r.2)) := by
  simp only [unicodeEscape, List.cons_append, List.nil_append]
  rw [parseStringBody]
  simp [hex4_unicodeEscape u h]

theorem parseStringBody_raw (u : Nat) (h1 : u ≠ 0x22) (h2 : u ≠ 0x5C) (h3 : ¬ u < 0x20)
    (tail : JSString) :
    parseStringBody (u :: tail) = (parseStringBody tail).map (fun r => (u :: r.1, r.2)) := by
  conv_lhs => rw [parseStringBody.eq_def]
  simp [h1, h2, h3]

theorem parseStringBody_escapeUnit (u : Nat) (tail : JSString) :
    parseStringBody (escapeUnit u ++ tail)
      = (parseStringBody tail).map (fun r => (u :: r.1, r.2)) := by
  unfold escapeUnit
  split_ifs with h1 h2 h3 h4 h5 h6 h7 h8
  · subst h1; rw [List.cons_append]; conv_lhs => rw [parseStringBody.eq_def]
    simp [unescape]
  · subst h2; rw [List.cons_append]; conv_lhs => rw [parseStringBody.eq_def]
    simp [unescape]
  · subst h3; rw [List.cons_append]; conv_lhs => rw [parseStringBody.eq_def]
    simp [unescape]
  · subst h4; rw [List.cons_append]; conv_lhs => rw [parseStringBody.eq_def]
    simp [unescape]
  · subst h5; rw [List.cons_append]; conv_lhs => rw [parseStringBody.eq_def]
    simp [unescape]
  · subst h6; rw [List.cons_append]; conv_lhs => rw [parseStringBody.eq_def]
    simp [unescape]
  · subst h7; rw [List.cons_append]; conv_lhs => rw [parseStringBody.eq_def]
    simp [unescape]
  · apply parseStringBody_unicodeEscape
    simp only [isTrailSurrogate, Bool.or_eq_true, decide_eq_true_eq, Bool.and_eq_true] at h8
    omega
  · simp only [isTrailSurrogate, Bool.or_eq_true, decide_eq_true_eq, Bool.and_eq_true, not_or] at h8
    exact parseStringBody_raw u h6 h7 h8.1 tail

/-- Reading back the characters `QuoteJSONString` wrote gives the string. -/
theorem parseStringBody_quoteBody (s : JSString) (rest : JSString) :
    parseStringBody (quoteBody s ++ 0x22 :: rest) = some (s, rest) := by
  induction s using quoteBody.induct with
  | case1 => 
    simp only [quoteBody, List.nil_append]
    rw [parseStringBody.eq_def]
    simp
  | case2 u hu =>
    have hlt : u < 65536 := by
      simp only [isLeadSurrogate, Bool.and_eq_true, decide_eq_true_eq] at hu
      omega
    have hq : quoteBody [u] = unicodeEscape u := by
      simp [quoteBody, hu]
    rw [hq, parseStringBody_unicodeEscape u hlt, parseStringBody.eq_def]
    simp
  | case3 u hu =>
    have hq : quoteBody [u] = escapeUnit u := by
      simp [quoteBody, hu]
    rw [hq, parseStringBody_escapeUnit, parseStringBody.eq_def]
    simp
  | case4 u l rest1 hu hl ih =>
    simp only [isLeadSurrogate, Bool.and_eq_true, decide_eq_true_eq] at hu
    simp only [isTrailSurrogate, Bool.and_eq_true, decide_eq_true_eq] at hl
    have hq : quoteBody (u :: l :: rest1) = u :: l :: quoteBody rest1 := by
      simp [quoteBody, isLeadSurrogate, isTrailSurrogate, hu, hl]
    rw [hq, List.cons_append, List.cons_append,
      parseStringBody_raw u (by omega) (by omega) (by omega),
      parseStringBody_raw l (by omega) (by omega) (by omega), ih]
    rfl
  | case5 u l rest1 hu hl ih =>
    have hlt : u < 65536 := by
      simp only [isLeadSurrogate, Bool.and_eq_true, decide_eq_true_eq] at hu
      omega
    have hq : quoteBody (u :: l :: rest1) = unicodeEscape u ++ quoteBody (l :: rest1) := by
      rw [quoteBody]
      simp [hu, hl]
    rw [hq, List.append_assoc, parseStringBody_unicodeEscape u hlt, ih]
    rfl
  | case6 u l rest1 hu ih =>
    have hq : quoteBody (u :: l :: rest1) = escapeUnit u ++ quoteBody (l :: rest1) := by
      rw [quoteBody]
      simp [hu]
    rw [hq, List.append_assoc, parseStringBody_escapeUnit, ih]
    rfl

/-! ## JSON values: reading back what `JSON.stringify` wrote -/

theorem skipWs_cons (u : Nat) (s : JSString) (h : isJsonWs u = false) :
    skipWs (u :: s) = u :: s := by
  simp [skipWs, List.dropWhile_cons, h]

theorem skipWs_quoteJSONString (x rest : JSString) :
    skipWs (quoteJSONString x ++ rest) = quoteJSONString x ++ rest := by
  simp only [quoteJSONString, List.cons_append, List.nil_append]
  exact skipWs_cons _ _ rfl

theorem parseValue_string (f : Nat) (x rest : JSString) :
    parseValue (f + 1) (quoteJSONString x ++ rest) = some (JVal.str x, rest) := by
  simp only [quoteJSONString, List.cons_append, List.nil_append, List.append_assoc]
  rw [parseValue]
  simp [parseStringBody_quoteBody]

/-- The text `JSON.stringify` writes for a boolean. -/
theorem parseValue_bool (f : Nat) (b : Bool) (rest : JSString) :
    parseValue (f + 1) ((if b then js "true" else js "false") ++ rest) = some (JVal.bool b, rest) := by
  cases b
  · have h : js "false" = [0x66, 0x61, 0x6C, 0x73, 0x65] := rfl
    simp only [h, Bool.false_eq_true, if_false, List.cons_append, List.nil_append]
    rw [parseValue]
    simp [stripLit]
  · have h : js "true" = [0x74, 0x72, 0x75, 0x65] := rfl
    simp only [h, if_true, List.cons_append, List.nil_append]
    rw [parseValue]
    simp [stripLit]

theorem parseMembers_last (f : Nat) (k vtext : JSString) (v : JVal) (rest : JSString)
    (hws : skipWs (vtext ++ 0x7D :: rest) = vtext ++ 0x7D :: rest)
    (hv : parseValue f (vtext ++ 0x7D :: rest) = some (v, 0x7D :: rest)) :
    parseMembers (f + 1) (quoteJSONString k ++ 0x3A :: (vtext ++ 0x7D :: rest))
      = some ([(k, v)], rest) := by
  simp only [quoteJSONString, List.cons_append, List.nil_append, List.append_assoc]
  rw [parseMembers]
  simp only [if_true, parseStringBody_quoteBody]
  rw [skipWs_cons 0x3A _ rfl]
  simp only [if_true, hws, hv]
  rw [skipWs_cons 0x7D _ rfl]
  simp

theorem parseMembers_more (f : Nat) (k vtext : JSString) (v : JVal) (more : JSString)
    (hws : skipWs (vtext ++ 0x2C :: more) = vtext ++ 0x2C :: more)
    (hmore : skipWs more = more)
    (hv : parseValue f (vtext ++ 0x2C :: more) = some (v, 0x2C :: more)) :
    parseMembers (f + 1) (quoteJSONString k ++ 0x3A :: (vtext ++ 0x2C :: more))
      = (parseMembers f more).map (fun r => ((k, v) :: r.1, r.2)) := by
  simp only [quoteJSONString, List.cons_append, List.nil_append, List.append_assoc]
  rw [parseMembers]
  simp only [if_true, parseStringBody_quoteBody]
  rw [skipWs_cons 0x3A _ rfl]
  simp only [if_true, hws, hv]
  rw [skipWs_cons 0x2C _ rfl]
  simp [hmore]

theorem stringifyTask_append (t : Task) (rest : JSString) :
    stringifyTask t ++ rest
      = 0x7B :: (quoteJSONString (js "id") ++ 0x3A :: (quoteJSONString t.id ++ 0x2C ::
          (quoteJSONString (js "text") ++ 0x3A :: (quoteJSONString t.text ++ 0x2C ::
            (quoteJSONString (js "completed") ++ 0x3A ::
              ((if t.completed then js "true" else js "false") ++ 0x7D :: rest)))))) := by
  have h1 : js "\x7b\"id\":" = 0x7B :: (quoteJSONString (js "id") ++ [0x3A]) := rfl
  have h2 : js ",\"text\":" = 0x2C :: (quoteJSONString (js "text") ++ [0x3A]) := rfl
  have h3 : js ",\"completed\":" = 0x2C :: (quoteJSONString (js "completed") ++ [0x3A]) := rfl
  have h4 : js "\x7d" = [0x7D] := rfl
  simp only [stringifyTask, h1, h2, h3, h4, List.append_assoc, List.cons_append, List.nil_append]

theorem mkObject_task (i t : JSString) (c : Bool) :
    mkObject [(js "id", JVal.str i), (js "text", JVal.str t), (js "completed", JVal.bool c)]
      = [(js "id", JVal.str i), (js "text", JVal.str t), (js "completed", JVal.bool c)] := rfl

theorem skipWs_boolText (b : Bool) (rest : JSString) :
    skipWs ((if b then js "true" else js "false") ++ rest)
      = (if b then js "true" else js "false") ++ rest := by
  cases b
  · exact skipWs_cons 0x66 _ rfl
  · exact skipWs_cons 0x74 _ rfl

theorem parseMembers_task (f : Nat) (t : Task) (rest : JSString) :
    parseMembers (f + 4) (quoteJSONString (js "id") ++ 0x3A :: (quoteJSONString t.id ++ 0x2C ::
          (quoteJSONString (js "text") ++ 0x3A :: (quoteJSONString t.text ++ 0x2C ::
            (quoteJSONString (js "completed") ++ 0x3A ::
              ((if t.completed then js "true" else js "false") ++ 0x7D :: rest))))))
      = some ([(js "id", JVal.str t.id), (js "text", JVal.str t.text),
          (js "completed", JVal.bool t.completed)], rest) := by
  rw [parseMembers_more (f + 3) _ _ (JVal.str t.id) _ (skipWs_quoteJSONString _ _)
      (skipWs_quoteJSONString _ _) (parseValue_string (f + 2) _ _),
    parseMembers_more (f + 2) _ _ (JVal.str t.text) _ (skipWs_quoteJSONString _ _)
      (skipWs_quoteJSONString _ _) (parseValue_string (f + 1) _ _),
    parseMembers_last (f + 1) _ _ (JVal.bool t.completed) _ (skipWs_boolText _ _)
      (parseValue_bool f _ _)]
  rfl

/-- Reading back the text of one task record. -/
theorem parseValue_stringifyTask (f : Nat) (t : Task) (rest : JSString) :
    parseValue (f + 5) (stringifyTask t ++ rest) = some (taskToJVal t, rest) := by
  rw [stringifyTask_append, parseValue]
  have hm := parseMembers_task f t rest
  rw [skipWs_quoteJSONString]
  simp only [quoteJSONString, List.cons_append, List.nil_append, List.append_assoc] at hm ⊢
  simp [hm, mkObject_task, taskToJVal]

theorem stringifyElements_cons_cons (t t1 : Task) (L1 : List Task) :
    stringifyElements (t :: t1 :: L1)
      = stringifyTask t ++ 0x2C :: stringifyElements (t1 :: L1) := by
  have hcomma : js "," = [0x2C] := rfl
  have h : stringifyElements (t :: t1 :: L1)
      = stringifyTask t ++ js "," ++ stringifyElements (t1 :: L1) := rfl
  rw [h, hcomma, List.append_assoc]
  rfl

theorem stringifyElements_cons_head (t : Task) (L : List Task) (rest : JSString) :
    ∃ tail, stringifyElements (t :: L) ++ rest = 0x7B :: tail := by
  cases L with
  | nil => exact ⟨_, stringifyTask_append t rest⟩
  | cons t1 L1 =>
    rw [stringifyElements_cons_cons, List.append_assoc, stringifyTask_append]
    exact ⟨_, rfl⟩

theorem skipWs_stringifyElements (t : Task) (L : List Task) (rest : JSString) :
    skipWs (stringifyElements (t :: L) ++ rest) = stringifyElements (t :: L) ++ rest := by
  obtain ⟨tail, h⟩ := stringifyElements_cons_head t L rest
  rw [h]
  exact skipWs_cons 0x7B _ rfl

/-- Reading back the elements of a serialized task list. -/
theorem parseElements_tasks (L : List Task) (t : Task) (f : Nat) (rest : JSString) :
    parseElements (f + L.length + 6) (stringifyElements (t :: L) ++ 0x5D :: rest)
      = some ((t :: L).map taskToJVal, rest) := by
  induction L generalizing t f with
  | nil =>
    rw [parseElements]
    simp only [stringifyElements, List.length_nil, Nat.add_zero]
    rw [parseValue_stringifyTask f t]
    simp only
    rw [skipWs_cons 0x5D _ rfl]
    simp
  | cons t1 L1 ih =>
    have hfuel : f + (t1 :: L1).length + 6 = (f + L1.length + 6) + 1 := by
      simp only [List.length_cons]
      omega
    rw [hfuel, parseElements]
    have hval : parseValue (f + L1.length + 6)
        (stringifyElements (t :: t1 :: L1) ++ 0x5D :: rest)
        = some (taskToJVal t, 0x2C :: (stringifyElements (t1 :: L1) ++ 0x5D :: rest)) := by
      have h5 : f + L1.length + 6 = (f + L1.length + 1) + 5 := by omega
      rw [h5, stringifyElements_cons_cons, List.append_assoc, parseValue_stringifyTask]
      rfl
    rw [hval]
    simp only
    rw [skipWs_cons 0x2C _ rfl]
    simp only [if_true]
    rw [skipWs_stringifyElements, ih]
    rfl

/-- Reading back the text of a task list. -/
theorem parseValue_stringifyTasks (L : List Task) (f : Nat) (rest : JSString) :
    parseValue (f + L.length + 6) (stringifyTasks L ++ rest) = some (tasksToJVal L, rest) := by
  have hopen : js "[" = [0x5B] := rfl
  have hclose : js "]" = [0x5D] := rfl
  simp only [stringifyTasks, hopen, hclose, List.cons_append, List.nil_append, List.append_assoc]
  cases L with
  | nil =>
    rw [parseValue]
    simp only [stringifyElements, List.nil_append]
    rw [skipWs_cons 0x5D _ rfl]
    simp [tasksToJVal]
  | cons t L1 =>
    have hfuel : f + (t :: L1).length + 6 = (f + L1.length + 6) + 1 := by
      simp only [List.length_cons]
      omega
    rw [hfuel, parseValue]
    have hp := parseElements_tasks L1 t f rest
    obtain ⟨tail, htail⟩ := stringifyElements_cons_head t L1 (0x5D :: rest)
    rw [skipWs_stringifyElements]
    rw [htail] at hp ⊢
    simp [hp, tasksToJVal]

theorem length_stringifyTask_pos (t : Task) : 0 < (stringifyTask t).length := by
  have h := stringifyTask_append t []
  rw [List.append_nil] at h
  rw [h]
  exact Nat.succ_pos _

theorem length_stringifyElements (L : List Task) : L.length ≤ (stringifyElements L).length := by
  induction L with
  | nil => exact Nat.le_refl _
  | cons t L1 ih =>
    cases L1 with
    | nil =>
      have := length_stringifyTask_pos t
      simpa [stringifyElements] using this
    | cons t1 L2 =>
      have := length_stringifyTask_pos t
      rw [stringifyElements_cons_cons]
      simp only [List.length_append, List.length_cons] at ih ⊢
      omega

theorem length_stringifyTasks (L : List Task) : L.length + 2 ≤ (stringifyTasks L).length := by
  have h := length_stringifyElements L
  have hopen : js "[" = [0x5B] := rfl
  have hclose : js "]" = [0x5D] := rfl
  simp only [stringifyTasks, hopen, hclose, List.length_append, List.length_cons, List.length_nil]
  omega

/-- `JSON.parse(JSON.stringify(tasks))` is the task list. -/
theorem jsonParse_stringifyTasks (L : List Task) :
    jsonParse (stringifyTasks L) = .ok (tasksToJVal L) := by
  have hlen := length_stringifyTasks L
  obtain ⟨f, hf⟩ : ∃ f, 2 * (stringifyTasks L).length + 2 = f + L.length + 6 :=
    ⟨2 * (stringifyTasks L).length + 2 - (L.length + 6), by omega⟩
  have hp := parseValue_stringifyTasks L f []
  rw [List.append_nil] at hp
  have hws : skipWs (stringifyTasks L) = stringifyTasks L := by
    have hopen : js "[" = [0x5B] := rfl
    simp only [stringifyTasks, hopen, List.cons_append, List.nil_append, List.append_assoc]
    exact skipWs_cons 0x5B _ rfl
  simp only [jsonParse, hws, hf, hp]
  rfl

/-- `JSON.parse(JSON.stringify(s))` is the string `s`. -/
theorem jsonParse_quoteJSONString (x : JSString) :
    jsonParse (quoteJSONString x) = .ok (JVal.str x) := by
  have hp := parseValue_string (2 * (quoteJSONString x).length + 1) x []
  rw [List.append_nil] at hp
  have hws := skipWs_quoteJSONString x []
  rw [List.append_nil] at hws
  simp only [jsonParse, hws, hp]
  rfl

/-! ## The storage adapter -/

theorem getItem_of_setItem (st st1 : Storage) (key value : JSString)
    (h : setItem st key value = .ok st1) : getItem st1 key = .ok (some value) := by
  unfold setItem at h
  split at h
  · rename_i hacc
    simp only at h
    split at h
    · injection h with h1
      subst h1
      simp [getItem, hacc]
    · cases h
  · cases h

theorem save_of_setItem (st st1 : Storage) (key value : JSString)
    (h : setItem st key value = .ok st1) : save st key value = st1 := by
  simp [save, h]

theorem truthyStr_stringifyTasks (L : List Task) : truthyStr (stringifyTasks L) = true := by
  rw [truthyStr_eq_true_iff]
  intro h
  have hlen := length_stringifyTasks L
  rw [h] at hlen
  simp at hlen

theorem truthyStr_quoteJSONString (x : JSString) : truthyStr (quoteJSONString x) = true := by
  simp [truthyStr, quoteJSONString]

theorem taskOfJVal_taskToJVal (t : Task) : taskOfJVal (taskToJVal t) = some t := by
  simp [taskOfJVal, taskToJVal]

theorem tasksOfJVal_tasksToJVal (L : List Task) : tasksOfJVal (tasksToJVal L) = some L := by
  simp only [tasksOfJVal, tasksToJVal]
  induction L with
  | nil => rfl
  | cons t L1 ih =>
    simp only [List.map_cons, tasksOfElems, taskOfJVal_taskToJVal, ih]

theorem load_of_written (st1 : Storage) (key raw : JSString) (v d : JVal)
    (hget : getItem st1 key = .ok (some raw)) (htruthy : truthyStr raw = true)
    (hparse : jsonParse raw = .ok v) : load st1 key d = v := by
  simp [load, hget, htruthy, hparse]

/-- C9, as the spec states it, fails when the store refuses the write: the
save path drops the exception, so after saving `sampleTasks` to a full store
the load path returns the stale `[]`, and after saving to a disabled store it
returns the default (here `null` for the task list and "light" for the theme
"dark") instead of the value written. -/
theorem store_roundtrip_counterexample :
    saveTasks fullStore sampleTasks = fullStore ∧
    load (saveTasks fullStore sampleTasks) (js "tasks") JVal.null = JVal.arr [] ∧
    load (saveTasks fullStore sampleTasks) (js "tasks") JVal.null ≠ tasksToJVal sampleTasks ∧
    load (saveTasks disabledStore sampleTasks) (js "tasks") JVal.null = JVal.null ∧
    load (saveTasks disabledStore sampleTasks) (js "tasks") JVal.null ≠ tasksToJVal sampleTasks ∧
    (js "dark", js "Dark") ∈ themeOptions ∧
    load (saveTheme disabledStore (js "dark")) (js "theme") (JVal.str (js "light"))
      = JVal.str (js "light") ∧
    load (saveTheme disabledStore (js "dark")) (js "theme") (JVal.str (js "light"))
      ≠ JVal.str (js "dark") := by
  have h1 : load (saveTasks fullStore sampleTasks) (js "tasks") JVal.null = JVal.arr [] := rfl
  have h2 : load (saveTasks disabledStore sampleTasks) (js "tasks") JVal.null = JVal.null := rfl
  have h3 : load (saveTheme disabledStore (js "dark")) (js "theme") (JVal.str (js "light"))
      = JVal.str (js "light") := rfl
  have h4 : tasksToJVal sampleTasks = JVal.arr (sampleTasks.map taskToJVal) := rfl
  have h5 : sampleTasks.map taskToJVal ≠ [] := by
    intro h
    cases h
  refine ⟨rfl, h1, ?_, h2, ?_, by decide, h3, ?_⟩
  · rw [h1, h4]
    intro h
    injection h with h6
    exact h5 h6.symm
  · rw [h2, h4]
    intro h
    cases h
  · rw [h3]
    intro h
    injection h with h6
    revert h6
    decide

/-- C9, amended: after a write that the store accepted, the load path with any
default returns the value that was written and not the default: for every task
list (the empty one included) the loaded value is the list of the same records
in the same order, and for every string, in particular every theme of
`themeOptions`, the loaded value is that string.  A write that the store
refuses is dropped: the store is unchanged, so the load path returns what it
returned before the write. -/
theorem store_roundtrip (st : Storage) (key : JSString) (d : JVal) :
    (∀ L : List Task, (∃ st1, setItem st key (stringifyTasks L) = .ok st1) →
      load (save st key (stringifyTasks L)) key d = tasksToJVal L ∧
      tasksOfJVal (load (save st key (stringifyTasks L)) key d) = some L) ∧
    (∀ v : JSString, (∃ st1, setItem st key (quoteJSONString v) = .ok st1) →
      load (save st key (quoteJSONString v)) key d = JVal.str v) ∧
    (∀ L : List Task, (∃ st1, setItem st (js "tasks") (stringifyTasks L) = .ok st1) →
      load (saveTasks st L) (js "tasks") d = tasksToJVal L) ∧
    (∀ v ∈ themeOptions.map (fun o => o.1),
      (∃ st1, setItem st (js "theme") (quoteJSONString v) = .ok st1) →
      load (saveTheme st v) (js "theme") d = JVal.str v) ∧
    (∀ L L1 : List Task, tasksToJVal L = tasksToJVal L1 → L = L1) ∧
    (∀ (json : JSString) (e : JSError), setItem st key json = .error e →
      save st key json = st ∧ load (save st key json) key d = load st key d) := by
  have htasks : ∀ (k : JSString) (L : List Task),
      (∃ st1, setItem st k (stringifyTasks L) = .ok st1) →
      load (save st k (stringifyTasks L)) k d = tasksToJVal L := by
    intro k L ⟨st1, h⟩
    rw [save_of_setItem st st1 k _ h]
    exact load_of_written st1 k _ _ d (getItem_of_setItem st st1 k _ h)
      (truthyStr_stringifyTasks L) (jsonParse_stringifyTasks L)
  have hstr : ∀ (k v : JSString),
      (∃ st1, setItem st k (quoteJSONString v) = .ok st1) →
      load (save st k (quoteJSONString v)) k d = JVal.str v := by
    intro k v ⟨st1, h⟩
    rw [save_of_setItem st st1 k _ h]
    exact load_of_written st1 k _ _ d (getItem_of_setItem st st1 k _ h)
      (truthyStr_quoteJSONString v) (jsonParse_quoteJSONString v)
  refine ⟨?_, hstr key, htasks (js "tasks"), ?_, ?_, ?_⟩
  · intro L h
    have h1 := htasks key L h
    exact ⟨h1, by rw [h1, tasksOfJVal_tasksToJVal]⟩
  · intro v _ h
    exact hstr (js "theme") v h
  · intro L L1 h
    have h1 := tasksOfJVal_tasksToJVal L
    rw [h, tasksOfJVal_tasksToJVal] at h1
    injection h1 with h2
    exact h2.symm
  · intro json e h
    have hs : save st key json = st := by
      simp [save, h]
    exact ⟨hs, by rw [hs]⟩

/-- Witness of `store_roundtrip`: the list `sampleTasks` and the theme
"purple-dark" written to an empty store. -/
theorem store_roundtrip_witness :
    load (saveTasks emptyStore sampleTasks) (js "tasks") (JVal.arr []) = tasksToJVal sampleTasks ∧
    load (saveTheme emptyStore (js "purple-dark")) (js "theme") (JVal.str (js "light"))
      = JVal.str (js "purple-dark") :=
  have h := store_roundtrip emptyStore (js "tasks") (JVal.arr [])
  have h2 := store_roundtrip emptyStore (js "theme") (JVal.str (js "light"))
  ⟨h.2.2.1 sampleTasks ⟨_, rfl⟩, h2.2.2.2.1 (js "purple-dark") (by decide) ⟨_, rfl⟩⟩

/-- C8 at its failing input: an absent key and a text that does not parse load
as the default, but the stored text `null` parses, so the load path returns
`null` and not the default `[]`, and `tasks.filter(...)` of the render then
throws a `TypeError`; the stored text `{"tasks":[]}` loads as an object. -/
theorem load_corrupted_tasks :
    (∀ (st : Storage) (key : JSString) (d : JVal), getItem st key = .ok none → load st key d = d) ∧
    (∀ (st : Storage) (key raw : JSString) (d : JVal) (e : JSError),
      getItem st key = .ok (some raw) → jsonParse raw = .error e → load st key d = d) ∧
    load emptyStore (js "tasks") (JVal.arr []) = JVal.arr [] ∧
    load (storeWithTasks (js "[\x7b\"id\":\"7-a\",\"te")) (js "tasks") (JVal.arr []) = JVal.arr [] ∧
    load (storeWithTasks (js "null")) (js "tasks") (JVal.arr []) = JVal.null ∧
    load (storeWithTasks (js "null")) (js "tasks") (JVal.arr []) ≠ JVal.arr [] ∧
    arrayReceiver (load (storeWithTasks (js "null")) (js "tasks") (JVal.arr []))
      = .error .typeError ∧
    load (storeWithTasks (js "\x7b\"tasks\":[]\x7d")) (js "tasks") (JVal.arr [])
      = JVal.obj [(js "tasks", JVal.arr [])] := by
  refine ⟨?_, ?_, rfl, rfl, rfl, ?_, rfl, rfl⟩
  · intro st key d h
    simp [load, h]
  · intro st key raw d e h hp
    simp only [load, h, hp]
    split <;> rfl
  · intro h
    cases h

/-! ## The fuel of `jsonParse` never runs out -/

theorem skipWs_length_le (s : JSString) : (skipWs s).length ≤ s.length :=
  (List.dropWhile_sublist _).length_le

theorem parseStringBody_length (n : Nat) :
    ∀ (s x rest : JSString), s.length ≤ n → parseStringBody s = some (x, rest) →
      rest.length < s.length := by
  induction n with
  | zero =>
    intro s x rest hn h
    have hs : s = [] := List.length_eq_zero.mp (Nat.le_zero.mp hn)
    subst hs
    rw [parseStringBody.eq_def] at h
    cases h
  | succ n ih =>
    intro s x rest hn h
    rw [parseStringBody.eq_def] at h
    split at h
    · cases h
    · rename_i u t
      simp only [List.length_cons] at hn ⊢
      split at h
      · injection h with h1
        injection h1 with h2 h3
        subst h3
        omega
      · split at h
        · split at h
          · cases h
          · rename_i e t1
            simp only [List.length_cons] at hn ⊢
            split at h
            · split at h
              · rename_i a b c d t2
                simp only [List.length_cons] at hn ⊢
                split at h
                · rw [Option.map_eq_some'] at h
                  obtain ⟨r, hr, hrr⟩ := h
                  injection hrr with h2 h3
                  have := ih t2 r.1 r.2 (by omega) hr
                  subst h3
                  omega
                · cases h
              · cases h
            · split at h
              · rw [Option.map_eq_some'] at h
                obtain ⟨r, hr, hrr⟩ := h
                injection hrr with h2 h3
                have := ih t1 r.1 r.2 (by omega) hr
                subst h3
                omega
              · cases h
        · split at h
          · cases h
          · rw [Option.map_eq_some'] at h
            obtain ⟨r, hr, hrr⟩ := h
            injection hrr with h2 h3
            have := ih t r.1 r.2 (by omega) hr
            subst h3
            omega

theorem stripLit_length (lit : JSString) :
    ∀ (s r : JSString), stripLit lit s = some r → r.length + lit.length = s.length := by
  induction lit with
  | nil =>
    intro s r h
    cases s <;> simp only [stripLit, Option.some.injEq] at h <;> subst h <;> rfl
  | cons c lit1 ih =>
    intro s r h
    cases s with
    | nil => simp [stripLit] at h
    | cons u s1 =>
      simp only [stripLit] at h
      split at h
      · have := ih s1 r h
        simp only [List.length_cons]
        omega
      · cases h

theorem parseDigits_length (s d r : JSString) (h : parseDigits s = some (d, r)) :
    r.length ≤ s.length := by
  unfold parseDigits at h
  split at h
  · cases h
  · injection h with h1
    injection h1 with h2 h3
    subst h3
    exact (List.dropWhile_sublist _).length_le

theorem parseInt_length (s i r : JSString) (h : parseInt s = some (i, r)) :
    r.length < s.length := by
  unfold parseInt at h
  split at h
  · cases h
  · rename_i d rest
    simp only [List.length_cons]
    split at h
    · injection h with h1
      injection h1 with h2 h3
      subst h3
      omega
    · split at h
      · injection h with h1
        injection h1 with h2 h3
        subst h3
        have := (List.dropWhile_sublist isDigit (l := rest)).length_le
        omega
      · cases h

theorem parseFrac_length (s f r : JSString) (h : parseFrac s = some (f, r)) :
    r.length ≤ s.length := by
  unfold parseFrac at h
  split at h
  · injection h with h1
    injection h1 with h2 h3
    subst h3
    exact Nat.le_refl _
  · rename_i u rest
    split at h
    · rw [Option.map_eq_some'] at h
      obtain ⟨p, hp, hpp⟩ := h
      injection hpp with h2 h3
      have := parseDigits_length rest p.1 p.2 hp
      subst h3
      simp only [List.length_cons]
      omega
    · injection h with h1
      injection h1 with h2 h3
      subst h3
      exact Nat.le_refl _

theorem parseExp_length (s x r : JSString) (h : parseExp s = some (x, r)) :
    r.length ≤ s.length := by
  unfold parseExp at h
  split at h
  · injection h with h1
    injection h1 with h2 h3
    subst h3
    exact Nat.le_refl _
  · rename_i e rest
    split at h
    · split at h
      · cases h
      · rename_i g rest1
        split at h
        · rw [Option.map_eq_some'] at h
          obtain ⟨p, hp, hpp⟩ := h
          injection hpp with h2 h3
          have := parseDigits_length rest1 p.1 p.2 hp
          subst h3
          simp only [List.length_cons]
          omega
        · rw [Option.map_eq_some'] at h
          obtain ⟨p, hp, hpp⟩ := h
          injection hpp with h2 h3
          have := parseDigits_length (g :: rest1) p.1 p.2 hp
          subst h3
          simp only [List.length_cons] at this ⊢
          omega
    · injection h with h1
      injection h1 with h2 h3
      subst h3
      exact Nat.le_refl _

theorem parseSign_length (s : JSString) : (parseSign s).2.length ≤ s.length := by
  unfold parseSign
  split
  · exact Nat.le_refl _
  · split
    · simp
    · exact Nat.le_refl _

theorem parseNumber_length (s tok r : JSString) (h : parseNumber s = some (tok, r)) :
    r.length < s.length := by
  unfold parseNumber at h
  split at h
  · cases h
  · rename_i i s1 hi
    split at h
    · cases h
    · rename_i f s2 hf
      split at h
      · cases h
      · rename_i x s3 hx
        injection h with h1
        injection h1 with h2 h3
        subst h3
        have h4 := parseInt_length _ _ _ hi
        have h5 := parseFrac_length _ _ _ hf
        have h6 := parseExp_length _ _ _ hx
        have h7 := parseSign_length s
        omega

theorem skipWs_cons_length (s : JSString) (c : Nat) (t : JSString) (h : skipWs s = c :: t) :
    t.length < s.length := by
  have := skipWs_length_le s
  rw [h] at this
  simpa using this

/-- Every successful read consumes at least one code unit. -/
theorem parse_length (f : Nat) :
    (∀ s v rest, parseValue f s = some (v, rest) → rest.length < s.length) ∧
    (∀ s vs rest, parseElements f s = some (vs, rest) → rest.length < s.length) ∧
    (∀ s ms rest, parseMembers f s = some (ms, rest) → rest.length < s.length) := by
  induction f with
  | zero =>
    refine ⟨?_, ?_, ?_⟩
    · intro s v rest h
      rw [parseValue.eq_def] at h
      simp only at h
      cases h
    · intro s v rest h
      rw [parseElements.eq_def] at h
      simp only at h
      cases h
    · intro s v rest h
      rw [parseMembers.eq_def] at h
      simp only at h
      cases h
  | succ f ih =>
    obtain ⟨ihV, ihE, ihM⟩ := ih
    refine ⟨?_, ?_, ?_⟩
    · intro s v rest h
      rw [parseValue.eq_def] at h
      simp only at h
      split at h
      · cases h
      · rename_i u t
        simp only [List.length_cons]
        split at h
        · rw [Option.map_eq_some'] at h
          obtain ⟨r, hr, hrr⟩ := h
          injection hrr with h2 h3
          have := parseStringBody_length t.length t r.1 r.2 (Nat.le_refl _) hr
          subst h3
          omega
        · split at h
          · split at h
            · cases h
            · rename_i c t1 hsk
              have hlen := skipWs_cons_length _ _ _ hsk
              split at h
              · injection h with h1
                injection h1 with h2 h3
                subst h3
                omega
              · rw [Option.map_eq_some'] at h
                obtain ⟨r, hr, hrr⟩ := h
                injection hrr with h2 h3
                have := ihE _ _ _ hr
                subst h3
                simp only [List.length_cons] at this
                omega
          · split at h
            · split at h
              · cases h
              · rename_i c t1 hsk
                have hlen := skipWs_cons_length _ _ _ hsk
                split at h
                · injection h with h1
                  injection h1 with h2 h3
                  subst h3
                  omega
                · rw [Option.map_eq_some'] at h
                  obtain ⟨r, hr, hrr⟩ := h
                  injection hrr with h2 h3
                  have := ihM _ _ _ hr
                  subst h3
                  simp only [List.length_cons] at this
                  omega
            · have hlit : ∀ (lit : JSString) (w : JVal), 0 < lit.length →
                  Option.map (fun r => (w, r)) (stripLit lit (u :: t)) = some (v, rest) →
                  rest.length < t.length + 1 := by
                intro lit w hpos hm
                rw [Option.map_eq_some'] at hm
                obtain ⟨r, hr, hrr⟩ := hm
                injection hrr with h2 h3
                have := stripLit_length lit _ _ hr
                subst h3
                simp only [List.length_cons] at this
                omega
              split at h
              · exact hlit _ _ (by decide) h
              · split at h
                · exact hlit _ _ (by decide) h
                · split at h
                  · exact hlit _ _ (by decide) h
                  · rw [Option.map_eq_some'] at h
                    obtain ⟨r, hr, hrr⟩ := h
                    injection hrr with h2 h3
                    have := parseNumber_length _ _ _ hr
                    subst h3
                    simp only [List.length_cons] at this
                    omega
    · intro s vs rest h
      rw [parseElements.eq_def] at h
      simp only at h
      split at h
      · cases h
      · rename_i v r0 hv
        have h0 := ihV _ _ _ hv
        split at h
        · cases h
        · rename_i c t1 hsk
          have hlen := skipWs_cons_length _ _ _ hsk
          split at h
          · rw [Option.map_eq_some'] at h
            obtain ⟨r, hr, hrr⟩ := h
            injection hrr with h2 h3
            have h4 := ihE _ _ _ hr
            have h5 := skipWs_length_le t1
            subst h3
            omega
          · split at h
            · injection h with h1
              injection h1 with h2 h3
              subst h3
              omega
            · cases h
    · intro s ms rest h
      rw [parseMembers.eq_def] at h
      simp only at h
      split at h
      · cases h
      · rename_i q t
        simp only [List.length_cons]
        split at h
        · split at h
          · cases h
          · rename_i k t1 hk
            have h0 := parseStringBody_length t.length t k t1 (Nat.le_refl _) hk
            split at h
            · cases h
            · rename_i c t2 hsk
              have hlen := skipWs_cons_length _ _ _ hsk
              split at h
              · split at h
                · cases h
                · rename_i v t3 hv
                  have h1 := ihV _ _ _ hv
                  have h2 := skipWs_length_le t2
                  split at h
                  · cases h
                  · rename_i e t4 hsk2
                    have hlen2 := skipWs_cons_length _ _ _ hsk2
                    split at h
                    · rw [Option.map_eq_some'] at h
                      obtain ⟨r, hr, hrr⟩ := h
                      injection hrr with h3 h4
                      have h5 := ihM _ _ _ hr
                      have h6 := skipWs_length_le t4
                      subst h4
                      omega
                    · split at h
                      · injection h with h3
                        injection h3 with h4 h5
                        subst h5
                        omega
                      · cases h
              · cases h
        · cases h

/-- Beyond twice the length of the text, more fuel does not change what is
read. -/
theorem parse_fuel_stable (f : Nat) :
    (∀ s g, 2 * s.length + 1 ≤ f → f ≤ g → parseValue g s = parseValue f s) ∧
    (∀ s g, 2 * s.length + 2 ≤ f → f ≤ g → parseElements g s = parseElements f s) ∧
    (∀ s g, 2 * s.length + 2 ≤ f → f ≤ g → parseMembers g s = parseMembers f s) := by
  induction f with
  | zero =>
    refine ⟨?_, ?_, ?_⟩ <;> intro s g h <;> omega
  | succ f ih =>
    obtain ⟨ihV, ihE, ihM⟩ := ih
    refine ⟨?_, ?_, ?_⟩
    · intro s g hf hg
      obtain ⟨g1, rfl⟩ : ∃ g1, g = g1 + 1 := ⟨g - 1, by omega⟩
      have hg1 : f ≤ g1 := by omega
      conv_lhs => rw [parseValue.eq_def]
      conv_rhs => rw [parseValue.eq_def]
      simp only
      cases s with
      | nil => rfl
      | cons u t =>
        simp only [List.length_cons] at hf
        simp only
        by_cases h1 : u = 0x22
        · simp only [h1, if_true]
        · simp only [h1, if_false]
          by_cases h2 : u = 0x5B
          · simp only [h2, if_true]
            cases hsk : skipWs t with
            | nil => rfl
            | cons c t1 =>
              have hlen := skipWs_cons_length _ _ _ hsk
              simp only
              rw [ihE (c :: t1) g1 (by simp only [List.length_cons]; omega) hg1]
          · simp only [h2, if_false]
            by_cases h3 : u = 0x7B
            · simp only [h3, if_true]
              cases hsk : skipWs t with
              | nil => rfl
              | cons c t1 =>
                have hlen := skipWs_cons_length _ _ _ hsk
                simp only
                rw [ihM (c :: t1) g1 (by simp only [List.length_cons]; omega) hg1]
            · simp only [h3, if_false]
    · intro s g hf hg
      obtain ⟨g1, rfl⟩ : ∃ g1, g = g1 + 1 := ⟨g - 1, by omega⟩
      have hg1 : f ≤ g1 := by omega
      conv_lhs => rw [parseElements.eq_def]
      conv_rhs => rw [parseElements.eq_def]
      simp only
      rw [ihV s g1 (by omega) hg1]
      cases hv : parseValue f s with
      | none => rfl
      | some p =>
        obtain ⟨v, r0⟩ := p
        have h0 := (parse_length f).1 _ _ _ hv
        simp only
        cases hsk : skipWs r0 with
        | nil => rfl
        | cons c t1 =>
          have hlen := skipWs_cons_length _ _ _ hsk
          have h5 := skipWs_length_le t1
          simp only
          rw [ihE (skipWs t1) g1 (by omega) hg1]
    · intro s g hf hg
      obtain ⟨g1, rfl⟩ : ∃ g1, g = g1 + 1 := ⟨g - 1, by omega⟩
      have hg1 : f ≤ g1 := by omega
      conv_lhs => rw [parseMembers.eq_def]
      conv_rhs => rw [parseMembers.eq_def]
      simp only
      cases s with
      | nil => rfl
      | cons q t =>
        simp only [List.length_cons] at hf
        simp only
        by_cases h1 : q = 0x22
        · simp only [h1, if_true]
          cases hk : parseStringBody t with
          | none => rfl
          | some p =>
            obtain ⟨k, t1⟩ := p
            have h0 := parseStringBody_length t.length t k t1 (Nat.le_refl _) hk
            simp only
            cases hsk : skipWs t1 with
            | nil => rfl
            | cons c t2 =>
              have hlen := skipWs_cons_length _ _ _ hsk
              have h2 := skipWs_length_le t2
              simp only
              by_cases hc : c = 0x3A
              · simp only [hc, if_true]
                rw [ihV (skipWs t2) g1 (by omega) hg1]
                cases hv : parseValue f (skipWs t2) with
                | none => rfl
                | some p2 =>
                  obtain ⟨v, t3⟩ := p2
                  have h3 := (parse_length f).1 _ _ _ hv
                  simp only
                  cases hsk2 : skipWs t3 with
                  | nil => rfl
                  | cons e t4 =>
                    have hlen2 := skipWs_cons_length _ _ _ hsk2
                    have h6 := skipWs_length_le t4
                    simp only
                    rw [ihM (skipWs t4) g1 (by omega) hg1]
              · simp only [hc, if_false]
        · simp only [h1, if_false]

/-- What `jsonParse` returns does not depend on its fuel: any larger fuel reads
the same value. -/
theorem jsonParse_fuel_adequate (text : JSString) (n : Nat) (h : 2 * text.length + 2 ≤ n) :
    parseValue n (skipWs text) = parseValue (2 * text.length + 2) (skipWs text) := by
  have hlen := skipWs_length_le text
  exact (parse_fuel_stable (2 * text.length + 2)).1 (skipWs text) n (by omega) h

end TaskManager
